import Mathlib

/-! Verification development for the class-combining pass of a structural
type-unification engine (the `CombineClasses` module).  The TypeScript
source is embedded shallowly: property maps (`Immutable.Map<string, Type>`)
become association lists with `Nat` keys (field names are interned
identifiers), ordered sets of types become `List`s, the JavaScript number
comparisons of the size gate become exact `Nat` arithmetic (`x < y * 0.75`
is multiplied out to `4 * x < 3 * y`, which is exact because 0.75 is a
dyadic rational), `Math.ceil(n * 0.75)` becomes `(3 * n + 3) / 4` in `Nat`
division, and the `assert`/`panic` abort paths become an `Option` result
(`none` = abort).  The `Type` hierarchy itself (`Type.ts`) is not among
the given sources; it is modelled from the spec (section 3): a closed
tagged union over kinds, where a string type optionally carries an
enumerated-value histogram (literal string values are interned as `Nat`),
a record/class type is identified by its graph-node reference (the graph
interns nodes, so reference equality is the structural equality the spec
names), and a union carries a list of non-union member alternatives. -/

/-- Kind discriminator of a type (spec section 3: the discriminator used for
equality-by-category checks).  Modelled from the spec as a closed
enumeration; the source compares the string names `"null"`, `"string"`,
etc., which are interned here as constructors. -/
inductive TKind where
  | nullKind
  | boolKind
  | integerKind
  | doubleKind
  | stringKind
  | classKind
  | unionKind
deriving DecidableEq

/-- The kinds a primitive type can have.  In the source, string types are a
separate class (`StringType`) from the other primitives, so the primitive
constructor exludes the string kind; this keeps `instanceof StringType`
and `kind === "string"` equivalent, as they are in the source. -/
inductive PrimKind where
  | nullPrim
  | boolPrim
  | integerPrim
  | doublePrim
deriving DecidableEq

/-- Modelled from the spec: a non-union type value.  `prim` is a primitive
(null/bool/integer/double), `str` is a string type with an optional
enumerated-value histogram (literal value, interned as `Nat`, mapped to its
observed occurrence count), `cls` is a record/class type identified by its
graph node reference. -/
inductive Ty where
  | prim (k : PrimKind)
  | str (enumCases : Option (List (Nat × Nat)))
  | cls (id : Nat)
deriving DecidableEq

/-- Modelled from the spec: the type stored for a record field, which may be
a plain (non-union) type or a union of non-union alternatives (a nullable
wrapper is a union containing the null primitive). -/
inductive FieldTy where
  | single (t : Ty)
  | union (members : List Ty)
deriving DecidableEq

/-- The `kind` discriminator of a non-union type. -/
def Ty.kind : Ty → TKind
  | .prim .nullPrim => .nullKind
  | .prim .boolPrim => .boolKind
  | .prim .integerPrim => .integerKind
  | .prim .doublePrim => .doubleKind
  | .str _ => .stringKind
  | .cls _ => .classKind

/-- The `kind` discriminator of a field type. -/
def FieldTy.kind : FieldTy → TKind
  | .single t => t.kind
  | .union _ => .unionKind

/-- The `instanceof StringType` test of the source. -/
def FieldTy.isString : FieldTy → Bool
  | .single (.str _) => true
  | _ => false

/-- The `t.enumCases` accessor of the source (`undefined` becomes `none`;
non-string types have no histogram). -/
def histOf : FieldTy → Option (List (Nat × Nat))
  | .single (.str e) => e
  | _ => none

/-- Modelled from the spec (`Type.ts` is not among the sources):
non-null member extraction.  A union yields its members minus the null
primitive; the null primitive alone yields the empty set; any other plain
type yields itself as a singleton. -/
def nonNullTypeCases : FieldTy → List Ty
  | .single t => if t.kind = TKind.nullKind then [] else [t]
  | .union ms => ms.filter (fun t => t.kind != TKind.nullKind)

/-- First-match association-list lookup with `Nat` keys: the embedding of
`Immutable.Map.get` (an `Immutable.Map` has unique keys, so first-match
lookup agrees with it). -/
def alookup {α : Type} (n : Nat) : List (Nat × α) → Option α
  | [] => none
  | p :: rest => if p.1 = n then some p.2 else alookup n rest

/-- A record/class type (`ClassType` in the source): a graph-node identity,
the `isFixed` (pinned) flag, and the ordered field-name-to-type mapping. -/
structure ClassType where
  id : Nat
  isFixed : Bool
  properties : List (Nat × FieldTy)
deriving DecidableEq

/-- The kind index the source builds over `s2`:
`Map(s2.map(t => [t.kind, t]))`.  Building an `Immutable.Map` from an entry
list keeps, for each key, the LAST entry with that key, so the lookup
returns the last member of `s2` with the given kind. -/
def kindIndexGet (s2 : List Ty) (k : TKind) : Option Ty :=
  (s2.filter (fun t => t.kind == k)).getLast?

/-- Embedding of `typeSetsCanBeCombined`: sizes must match exactly, and
every member of `s1` must be accepted against the kind-index entry of `s2`
for its kind: structurally equal, or string-kind. -/
def typeSetsCanBeCombined (s1 s2 : List Ty) : Bool :=
  if s1.length ≠ s2.length then false
  else s1.all (fun t =>
    match kindIndexGet s2 t.kind with
    | none => false
    | some other => t == other || t.kind == TKind.stringKind)

/-- The `minOverlap = Math.ceil(larger.size * REQUIRED_OVERLAP)` quantity
(`REQUIRED_OVERLAP = 3 / 4`), as exact natural-number arithmetic. -/
def minOverlapOf (larger : List (Nat × FieldTy)) : Nat :=
  (3 * larger.length + 3) / 4

/-- Embedding of the `smaller.forEach` walk of `canBeCombined`: collects the
common field names in order and counts the fault (missing) names.  An
`Immutable.Map.forEach` whose callback returns `false` stops iterating, so
once the fault counter exceeds `maxFaults` the walk stops (leaving the
common-name list truncated, exactly as in the source; the caller rejects in
that case before using the list). -/
def walkProps (larger : List (Nat × FieldTy)) (maxFaults : Nat) :
    List (Nat × FieldTy) → Nat → List Nat × Nat
  | [], faults => ([], faults)
  | p :: rest, faults =>
    if (alookup p.1 larger).isSome then
      let r := walkProps larger maxFaults rest faults
      (p.1 :: r.1, r.2)
    else
      if maxFaults < faults + 1 then ([], faults + 1)
      else walkProps larger maxFaults rest (faults + 1)

/-- Embedding of the common-property loop of `canBeCombined`: for each
common name look up both sides (a failed lookup is the
"Both of these should have this property" panic, modelled as `none`),
extract the non-null cases of both, and reject if both are non-empty but
the two case sets cannot be combined. -/
def checkCommon (smaller larger : List (Nat × FieldTy)) : List Nat → Option Bool
  | [] => some true
  | n :: rest =>
    match alookup n smaller, alookup n larger with
    | some ts, some tl =>
      if ¬ (nonNullTypeCases ts).isEmpty ∧ ¬ (nonNullTypeCases tl).isEmpty ∧
          ¬ typeSetsCanBeCombined (nonNullTypeCases ts) (nonNullTypeCases tl) = true then
        some false
      else checkCommon smaller larger rest
    | _, _ => none

/-- The part of `canBeCombined` after the size-ratio gate and the
larger/smaller choice.  `none` models the
`assert(maxFaults >= 0, "Max faults negative")` failure (and the
common-property lookup panic inside `checkCommon`). -/
def canBeCombinedCore (larger smaller : List (Nat × FieldTy)) : Option Bool :=
  if smaller.length < minOverlapOf larger then none
  else
    let maxFaults := smaller.length - minOverlapOf larger
    let wr := walkProps larger maxFaults smaller 0
    if maxFaults < wr.2 then some false
    else checkCommon smaller larger wr.1

/-- Embedding of `canBeCombined`: the symmetric size-ratio gate
(`p1.size < p2.size * 0.75 || p2.size < p1.size * 0.75`, multiplied out by
4), then the larger/smaller choice (`larger = p1` exactly when
`p1.size > p2.size`, so a tie makes `p2` the larger side), then the core. -/
def canBeCombined (c1 c2 : ClassType) : Option Bool :=
  let p1 := c1.properties
  let p2 := c2.properties
  if 4 * p1.length < 3 * p2.length ∨ 4 * p2.length < 3 * p1.length then some false
  else if p2.length < p1.length then canBeCombinedCore p1 p2
  else canBeCombinedCore p2 p1

/-- `canBeCombined` as a boolean (its result is proven to never be the
`none` abort, see `canBeCombined_ne_none`). -/
def canCombineB (a b : ClassType) : Bool :=
  canBeCombined a b == some true

/-- Embedding of `isPartOfClique`: the candidate must be combinable with
every current clique member. -/
def isPartOfClique (c : ClassType) (clique : List ClassType) : Bool :=
  clique.all (fun cc => canCombineB c cc)

/-- One round of the clique-building loop of `combineClasses`: walk the
remaining classes, adding each to the clique when it is combinable with
every current member and to the leftover list otherwise (`clique` and
`leftover` are the two accumulator arrays of the source loop). -/
def cliquePass (clique leftover : List ClassType) :
    List ClassType → List ClassType × List ClassType
  | [] => (clique, leftover)
  | c :: rest =>
    if isPartOfClique c clique then cliquePass (clique ++ [c]) leftover rest
    else cliquePass clique (leftover ++ [c]) rest

/-- The `while (unprocessedClasses.length > 0)` loop of `combineClasses`,
with an explicit fuel argument to make the recursion structural: each round
removes at least the seed, so fuel equal to the input length (as supplied
by `buildCliques`) is always enough; see `buildCliquesGo_fuel`.  Cliques of
size 1 are dropped. -/
def buildCliquesGo : Nat → List ClassType → List (List ClassType)
  | _, [] => []
  | 0, _ :: _ => []
  | fuel + 1, c :: rest =>
    let p := cliquePass [c] [] rest
    (if 1 < p.1.length then [p.1] else []) ++ buildCliquesGo fuel p.2

/-- The clique-building phase of `combineClasses` applied to an ordered list
of candidate classes. -/
def buildCliques (l : List ClassType) : List (List ClassType) :=
  buildCliquesGo l.length l

/-- Modelled from the spec (`TypeGraph.ts` is not among the sources): the
read surface this pass needs from the type graph is the ordered listing of
its named record types. -/
structure TypeGraph where
  classes : List ClassType

/-- The clique list `combineClasses` hands to the rewrite primitive: all
named classes of the graph, minus the pinned (`isFixed`) ones, partitioned
by the greedy clique builder. -/
def combineCliques (g : TypeGraph) : List (List ClassType) :=
  buildCliques (g.classes.filter (fun c => !c.isFixed))

/-- The result of `makePropertyType`, keeping the builder calls of the
source visible: the null primitive (`getPrimitiveType("null")`), a fresh
string type with a histogram (`getStringType(names, mergedCases)`), a
reconstituted copy of the representative (`reconstituteType(first)`), or a
nullable wrapper around one of those (`makeNullable(t, names)`). -/
inductive MergedProp where
  | primNull
  | stringTy (names : List Nat) (cases : List (Nat × Nat))
  | reconstituted (t : FieldTy)
  | nullableWrap (inner : MergedProp) (names : List Nat)
deriving DecidableEq

/-- Embedding of `OrderedMap.mergeWith((a, b) => a + b, r)`: keys of `l`
keep their order and get `r`'s count added when present in `r`; keys only
in `r` are appended in `r`'s order. -/
def mergeWithAdd (l r : List (Nat × Nat)) : List (Nat × Nat) :=
  (l.map (fun p => (p.1, match alookup p.1 r with
    | some b => p.2 + b
    | none => p.2)))
  ++ r.filter (fun p => (alookup p.1 l).isNone)

/-- Embedding of the enumerated-histogram merge of `makePropertyType`:
`allEnumCases.reduce((l, r) => l.mergeWith((a, b) => a + b, r))`.  Reducing
an empty list (the `defined(...)` panic would fire first in the source) is
modelled as `none`. -/
def mergedEnumCases (types : List FieldTy) : Option (List (Nat × Nat)) :=
  match types.filterMap histOf with
  | [] => none
  | h :: rest => some (rest.foldl mergeWithAdd h)

/-- Embedding of `makePropertyType`: empty type set gives the null
primitive; a string-kind representative requires every type to be a string
type (`assert`, modelled as `none`) and merges histograms additively when
every member carries one, otherwise reconstitutes the representative;
a non-string representative is reconstituted; finally, a nullable field is
wrapped in a nullable wrapper carrying the field's name hints. -/
def makePropertyCore (names : List Nat) (types : List FieldTy) : Option MergedProp :=
  match types with
  | [] => some MergedProp.primNull
  | first :: _ =>
    if first.isString then
      if types.all FieldTy.isString then
        if types.all (fun t => (histOf t).isSome) then
          match mergedEnumCases types with
          | none => none
          | some m => some (MergedProp.stringTy names m)
        else some (MergedProp.reconstituted first)
      else none
    else some (MergedProp.reconstituted first)

/-- The final wrapping step of `makePropertyType`: when `isNullable`, the
computed `resultType` is wrapped via `makeNullable(resultType, names)`. -/
def makePropertyType (names : List Nat) (types : List FieldTy) (isNullable : Bool) :
    Option MergedProp :=
  match makePropertyCore names types with
  | none => none
  | some t => some (if isNullable then MergedProp.nullableWrap t names else t)

/-- Modelled from the spec (`getCliqueProperties` of `UnifyClasses.ts` is
not among the sources; spec section 4.3): the type set handed to the
property merger for one field name is the list of that field's types
across the clique members that do have the field, in clique order. -/
def cliqueFieldTypes (clique : List ClassType) (n : Nat) : List FieldTy :=
  clique.filterMap (fun c => alookup n c.properties)

/-- The occurrence count a histogram assigns to a literal value (0 when the
value is absent). -/
def histCount (h : List (Nat × Nat)) (k : Nat) : Nat :=
  (alookup k h).getD 0

/-- The number of fields of `smaller` whose name is absent from `larger`
(the fault count of `canBeCombined`). -/
def faultsOf (smaller larger : List (Nat × FieldTy)) : Nat :=
  (smaller.filter (fun p => (alookup p.1 larger).isNone)).length

/-- The per-common-field condition of `canBeCombined`, phrased over lookups:
when the name resolves on both sides and both sides have a non-empty
non-null case set, the two case sets must be combinable (smaller side
first, as in the source). -/
def FieldOK (smaller larger : List (Nat × FieldTy)) (n : Nat) : Prop :=
  ∀ ts tl, alookup n smaller = some ts → alookup n larger = some tl →
    nonNullTypeCases ts ≠ [] → nonNullTypeCases tl ≠ [] →
    typeSetsCanBeCombined (nonNullTypeCases ts) (nonNullTypeCases tl) = true

/-- The common-field condition of `canBeCombined` over all field names. -/
def CommonOK (smaller larger : List (Nat × FieldTy)) : Prop :=
  ∀ n, FieldOK smaller larger n

/-- The field mapping `canBeCombined` uses as `larger` (ties go to the
second argument, as in the source). -/
def specLarger (c1 c2 : ClassType) : List (Nat × FieldTy) :=
  if c2.properties.length < c1.properties.length then c1.properties else c2.properties

/-- The field mapping `canBeCombined` uses as `smaller`. -/
def specSmaller (c1 c2 : ClassType) : List (Nat × FieldTy) :=
  if c2.properties.length < c1.properties.length then c2.properties else c1.properties

/-- Unique field names: the record-type invariant of spec section 3. -/
def PropsNodupKeys (ps : List (Nat × FieldTy)) : Prop :=
  (ps.map Prod.fst).Nodup

/-- Unique field names of a class. -/
def NodupKeys (c : ClassType) : Prop :=
  PropsNodupKeys c.properties

/-- A member type set whose members have pairwise distinct kinds. -/
def KindsDistinct (s : List Ty) : Prop :=
  (s.map Ty.kind).Nodup

/-- Every field's non-null member set has pairwise distinct kinds. -/
def PropsKindDistinct (ps : List (Nat × FieldTy)) : Prop :=
  ∀ p ∈ ps, KindsDistinct (nonNullTypeCases p.2)

/-- Every field's non-null member set of a class has pairwise distinct
kinds. -/
def KindDistinctFields (c : ClassType) : Prop :=
  PropsKindDistinct c.properties

/-- A field type that is a plain non-null type (its own single non-null
case): not a union, and not the null primitive. -/
def FieldTy.isNonNullAtom : FieldTy → Bool
  | .single t => t.kind != TKind.nullKind
  | .union _ => false

/-- Every field of the class holds a plain non-null type. -/
def AtomFields (c : ClassType) : Prop :=
  ∀ p ∈ c.properties, p.2.isNonNullAtom = true

/-- A plain (histogram-free) string type. -/
def exStrPlain : Ty := Ty.str none

/-- An enumerated string type with one observed literal value. -/
def exStrEnum : Ty := Ty.str (some [(0, 1)])

/-- A class-kind member type. -/
def exCls : Ty := Ty.cls 0

/-- Record with one field whose non-null member set holds two string-kind
members (a plain and an enumerated string). -/
def exRecA : ClassType :=
  ⟨1, false, [(0, FieldTy.union [exStrPlain, exStrEnum])]⟩

/-- Record with one field whose non-null member set holds a class member
and a string member. -/
def exRecB : ClassType :=
  ⟨2, false, [(0, FieldTy.union [exCls, exStrPlain])]⟩

/-- Record whose one field is a plain string. -/
def exRecS : ClassType := ⟨3, false, [(0, FieldTy.single exStrPlain)]⟩

/-- Record whose one field is a nullable string (union with null). -/
def exRecN : ClassType :=
  ⟨4, false, [(0, FieldTy.union [Ty.prim PrimKind.nullPrim, exStrPlain])]⟩

/-- Witness record: one plain-string field, not pinned. -/
def exRecW1 : ClassType := ⟨5, false, [(0, FieldTy.single exStrPlain)]⟩

/-- Witness record: same shape as `exRecW1`, distinct node. -/
def exRecW2 : ClassType := ⟨6, false, [(0, FieldTy.single exStrPlain)]⟩

/-- Witness record: same shape but pinned (`isFixed`). -/
def exRecP : ClassType := ⟨7, true, [(0, FieldTy.single exStrPlain)]⟩

/-- Enumerated string field with histogram red(0) seen 2 times. -/
def exEnumRed : FieldTy := FieldTy.single (Ty.str (some [(0, 2)]))

/-- Enumerated string field with histogram blue(1) seen 5 times and
red(0) seen once. -/
def exEnumBlueRed : FieldTy := FieldTy.single (Ty.str (some [(1, 5), (0, 1)]))


theorem alookup_isSome_iff {α : Type} (n : Nat) (l : List (Nat × α)) :
    (alookup n l).isSome = true ↔ n ∈ l.map Prod.fst := by
  induction l with
  | nil => simp [alookup]
  | cons p rest ih =>
    by_cases h : p.1 = n
    · simp [alookup, h]
    · simp only [alookup, h, if_false, List.map_cons, List.mem_cons, ih]
      constructor
      · exact Or.inr
      · intro hc
        rcases hc with hc | hc
        · exact absurd hc.symm h
        · exact hc

theorem alookup_eq_none_iff {α : Type} (n : Nat) (l : List (Nat × α)) :
    alookup n l = none ↔ n ∉ l.map Prod.fst := by
  rw [← alookup_isSome_iff]
  cases alookup n l <;> simp

theorem alookup_eq_some_mem {α : Type} {n : Nat} {l : List (Nat × α)} {v : α}
    (h : alookup n l = some v) : (n, v) ∈ l := by
  induction l with
  | nil => simp [alookup] at h
  | cons p rest ih =>
    by_cases hp : p.1 = n
    · simp only [alookup, hp, if_true, Option.some.injEq] at h
      subst h
      subst hp
      exact List.mem_cons_self _ _
    · simp only [alookup, hp, if_false] at h
      exact List.mem_cons_of_mem _ (ih h)

theorem getLast?_mem {α : Type} {l : List α} {a : α} (h : l.getLast? = some a) : a ∈ l := by
  rcases List.mem_getLast?_eq_getLast (show a ∈ l.getLast? from h) with ⟨hne, hx⟩
  rw [hx]
  exact List.getLast_mem hne

theorem kindIndexGet_eq_some {s : List Ty} {k : TKind} {u : Ty}
    (h : kindIndexGet s k = some u) : u ∈ s ∧ u.kind = k := by
  unfold kindIndexGet at h
  have hm : u ∈ s.filter (fun t => t.kind == k) := getLast?_mem h
  rw [List.mem_filter] at hm
  exact ⟨hm.1, by simpa using hm.2⟩

theorem kindIndexGet_isSome_of_mem {s : List Ty} {k : TKind} {u : Ty}
    (hu : u ∈ s) (hk : u.kind = k) : (kindIndexGet s k).isSome = true := by
  unfold kindIndexGet
  rw [List.getLast?_isSome]
  intro hemp
  have : u ∈ s.filter (fun t => t.kind == k) := by
    rw [List.mem_filter]
    exact ⟨hu, by simp [hk]⟩
  rw [hemp] at this
  simp at this

theorem KindsDistinct.inj {s : List Ty} (h : KindsDistinct s) {u v : Ty}
    (hu : u ∈ s) (hv : v ∈ s) (hk : u.kind = v.kind) : u = v :=
  List.inj_on_of_nodup_map h hu hv hk

theorem typeSetsCanBeCombined_elem {s2 : List Ty} (h2 : KindsDistinct s2) (t : Ty) :
    (match kindIndexGet s2 t.kind with
      | none => false
      | some other => t == other || t.kind == TKind.stringKind) = true ↔
    ∃ u ∈ s2, u.kind = t.kind ∧ (t = u ∨ t.kind = TKind.stringKind) := by
  constructor
  · intro h
    cases hk : kindIndexGet s2 t.kind with
    | none => rw [hk] at h; simp at h
    | some other =>
      rw [hk] at h
      obtain ⟨hmem, hkind⟩ := kindIndexGet_eq_some hk
      rcases Bool.or_eq_true_iff.mp h with h | h
      · exact ⟨other, hmem, hkind, Or.inl (by simpa using h)⟩
      · exact ⟨other, hmem, hkind, Or.inr (by simpa using h)⟩
  · rintro ⟨u, hu, huk, hor⟩
    have hsome := kindIndexGet_isSome_of_mem hu huk
    obtain ⟨v, hv⟩ := Option.isSome_iff_exists.mp hsome
    obtain ⟨hvmem, hvk⟩ := kindIndexGet_eq_some hv
    have huv : u = v := h2.inj hu hvmem (huk.trans hvk.symm)
    rw [hv]
    rcases hor with hor | hor
    · simp [hor, huv]
    · simp [hor]

theorem typeSetsCanBeCombined_char (s1 s2 : List Ty) (h2 : KindsDistinct s2) :
    typeSetsCanBeCombined s1 s2 = true ↔
      s1.length = s2.length ∧
      ∀ t ∈ s1, ∃ u ∈ s2, u.kind = t.kind ∧ (t = u ∨ t.kind = TKind.stringKind) := by
  unfold typeSetsCanBeCombined
  by_cases hlen : s1.length = s2.length
  · simp only [hlen, ne_eq, not_true_eq_false, if_false, List.all_eq_true, true_and]
    constructor
    · intro h t ht
      exact (typeSetsCanBeCombined_elem h2 t).mp (h t ht)
    · intro h t ht
      exact (typeSetsCanBeCombined_elem h2 t).mpr (h t ht)
  · simp [hlen]

theorem typeSetsCanBeCombined_true_swap {s1 s2 : List Ty}
    (h1 : KindsDistinct s1) (h2 : KindsDistinct s2)
    (h : typeSetsCanBeCombined s1 s2 = true) : typeSetsCanBeCombined s2 s1 = true := by
  obtain ⟨hlen, H⟩ := (typeSetsCanBeCombined_char s1 s2 h2).mp h
  rw [typeSetsCanBeCombined_char s2 s1 h1]
  refine ⟨hlen.symm, ?_⟩
  have hsub : (s1.map Ty.kind).toFinset ⊆ (s2.map Ty.kind).toFinset := by
    intro k hk
    rw [List.mem_toFinset, List.mem_map] at hk
    obtain ⟨t, ht, hkt⟩ := hk
    obtain ⟨u, hu, huk, _⟩ := H t ht
    rw [List.mem_toFinset, List.mem_map]
    exact ⟨u, hu, huk.trans hkt⟩
  have hcard1 : (s1.map Ty.kind).toFinset.card = s1.length := by
    rw [List.toFinset_card_of_nodup h1, List.length_map]
  have hcard2 : (s2.map Ty.kind).toFinset.card = s2.length := by
    rw [List.toFinset_card_of_nodup h2, List.length_map]
  have heq : (s1.map Ty.kind).toFinset = (s2.map Ty.kind).toFinset :=
    Finset.eq_of_subset_of_card_le hsub (by rw [hcard1, hcard2, hlen])
  intro u hu
  have hukmem : u.kind ∈ (s1.map Ty.kind).toFinset := by
    rw [heq, List.mem_toFinset, List.mem_map]
    exact ⟨u, hu, rfl⟩
  rw [List.mem_toFinset, List.mem_map] at hukmem
  obtain ⟨t, ht, htk⟩ := hukmem
  obtain ⟨w, hw, hwk, hor⟩ := H t ht
  have hwu : w = u := h2.inj hw hu (hwk.trans htk)
  subst hwu
  rcases hor with hor | hor
  · exact ⟨t, ht, htk, Or.inl hor.symm⟩
  · exact ⟨t, ht, htk, Or.inr (hwk.trans hor)⟩

theorem typeSetsCanBeCombined_symm (s1 s2 : List Ty)
    (h1 : KindsDistinct s1) (h2 : KindsDistinct s2) :
    typeSetsCanBeCombined s1 s2 = typeSetsCanBeCombined s2 s1 := by
  rw [Bool.eq_iff_iff]
  exact ⟨typeSetsCanBeCombined_true_swap h1 h2, typeSetsCanBeCombined_true_swap h2 h1⟩

theorem optionBool_ext {a b : Option Bool} (ha : a ≠ none) (hb : b ≠ none)
    (h : a = some true ↔ b = some true) : a = b := by
  cases a with
  | none => exact absurd rfl ha
  | some x =>
    cases b with
    | none => exact absurd rfl hb
    | some y => cases x <;> cases y <;> simp_all

theorem faultsOf_cons_found {p : Nat × FieldTy} {L rest : List (Nat × FieldTy)}
    (hp : (alookup p.1 L).isSome = true) :
    faultsOf (p :: rest) L = faultsOf rest L := by
  simp only [faultsOf, List.filter_cons]
  rw [if_neg]
  simp [Option.isNone_iff_eq_none]
  exact Option.isSome_iff_ne_none.mp hp

theorem faultsOf_cons_missing {p : Nat × FieldTy} {L rest : List (Nat × FieldTy)}
    (hp : alookup p.1 L = none) :
    faultsOf (p :: rest) L = faultsOf rest L + 1 := by
  simp only [faultsOf, List.filter_cons]
  rw [if_pos]
  · simp [List.length_cons, Nat.add_comm]
  · simp [hp]

theorem walkProps_snd (L : List (Nat × FieldTy)) (mf : Nat) :
    ∀ (l : List (Nat × FieldTy)) (f : Nat), f ≤ mf →
    (walkProps L mf l f).2 =
      if mf < f + faultsOf l L then mf + 1 else f + faultsOf l L := by
  intro l
  induction l with
  | nil =>
    intro f hf
    rw [if_neg (by simp [faultsOf]; omega)]
    simp [walkProps, faultsOf]
  | cons p rest ih =>
    intro f hf
    cases hp : alookup p.1 L with
    | some v =>
      have hs : (alookup p.1 L).isSome = true := by rw [hp]; rfl
      rw [faultsOf_cons_found hs]
      simp only [walkProps, hp, Option.isSome_some, if_true]
      exact ih f hf
    | none =>
      rw [faultsOf_cons_missing hp]
      simp only [walkProps, hp, Option.isSome_none, Bool.false_eq_true, if_false]
      by_cases hx : mf < f + 1
      · rw [if_pos hx]
        rw [if_pos (by omega)]
        omega
      · rw [if_neg hx]
        rw [ih (f + 1) (by omega)]
        have e : f + 1 + faultsOf rest L = f + (faultsOf rest L + 1) := by omega
        rw [e]

theorem walkProps_fst (L : List (Nat × FieldTy)) (mf : Nat) :
    ∀ (l : List (Nat × FieldTy)) (f : Nat), f + faultsOf l L ≤ mf →
    (walkProps L mf l f).1 =
      (l.filter (fun p => (alookup p.1 L).isSome)).map Prod.fst := by
  intro l
  induction l with
  | nil => intro f _; simp [walkProps]
  | cons p rest ih =>
    intro f hf
    cases hp : alookup p.1 L with
    | some v =>
      have hs : (alookup p.1 L).isSome = true := by rw [hp]; rfl
      rw [faultsOf_cons_found hs] at hf
      simp only [walkProps, hp, Option.isSome_some, if_true, List.filter_cons]
      rw [ih f hf, List.map_cons]
    | none =>
      rw [faultsOf_cons_missing hp] at hf
      simp only [walkProps, hp, Option.isSome_none, Bool.false_eq_true, if_false,
        List.filter_cons]
      rw [if_neg (show ¬ mf < f + 1 by omega)]
      exact ih (f + 1) (by omega)

theorem checkCommon_spec (smaller larger : List (Nat × FieldTy)) :
    ∀ ns : List Nat,
    (∀ n ∈ ns, (alookup n smaller).isSome = true ∧ (alookup n larger).isSome = true) →
    checkCommon smaller larger ns ≠ none ∧
      (checkCommon smaller larger ns = some true ↔ ∀ n ∈ ns, FieldOK smaller larger n) := by
  intro ns
  induction ns with
  | nil => intro _; exact ⟨by simp [checkCommon], by simp [checkCommon]⟩
  | cons n rest ih =>
    intro h
    obtain ⟨hs, hl⟩ := h n (List.mem_cons_self n rest)
    obtain ⟨ts, hts⟩ := Option.isSome_iff_exists.mp hs
    obtain ⟨tl, htl⟩ := Option.isSome_iff_exists.mp hl
    have hrest := ih (fun m hm => h m (List.mem_cons_of_mem n hm))
    by_cases hc : ¬ (nonNullTypeCases ts).isEmpty = true ∧
        ¬ (nonNullTypeCases tl).isEmpty = true ∧
        ¬ typeSetsCanBeCombined (nonNullTypeCases ts) (nonNullTypeCases tl) = true
    · have heq : checkCommon smaller larger (n :: rest) = some false := by
        simp only [checkCommon, hts, htl]
        rw [if_pos hc]
      rw [heq]
      refine ⟨by simp, ?_, ?_⟩
      · intro hff
        exact absurd hff (by simp)
      · intro hall
        have hok := hall n (List.mem_cons_self n rest) ts tl hts htl
          (fun he => hc.1 (List.isEmpty_iff.mpr he))
          (fun he => hc.2.1 (List.isEmpty_iff.mpr he))
        exact absurd hok hc.2.2
    · have heq : checkCommon smaller larger (n :: rest) =
          checkCommon smaller larger rest := by
        simp only [checkCommon, hts, htl]
        rw [if_neg hc]
      rw [heq]
      refine ⟨hrest.1, ?_⟩
      rw [hrest.2]
      constructor
      · intro hall m hm
        rcases List.mem_cons.mp hm with he | hm2
        · subst he
          intro ts2 tl2 h1 h2 hne1 hne2
          rw [hts] at h1
          rw [htl] at h2
          cases h1
          cases h2
          by_contra hno
          exact hc ⟨fun he => hne1 (List.isEmpty_iff.mp he),
            fun he => hne2 (List.isEmpty_iff.mp he), hno⟩
        · exact hall m hm2
      · intro hall m hm
        exact hall m (List.mem_cons_of_mem n hm)

theorem canBeCombinedCore_spec (L S : List (Nat × FieldTy)) :
    (canBeCombinedCore L S = none ↔ S.length < minOverlapOf L) ∧
    (canBeCombinedCore L S = some true ↔
      faultsOf S L + minOverlapOf L ≤ S.length ∧ CommonOK S L) := by
  by_cases hov : S.length < minOverlapOf L
  · have heq : canBeCombinedCore L S = none := by
      unfold canBeCombinedCore
      rw [if_pos hov]
    rw [heq]
    refine ⟨by simp [hov], ?_, ?_⟩
    · intro hff
      exact absurd hff (by simp)
    · intro hrhs
      omega
  · have hcore : canBeCombinedCore L S =
        (if S.length - minOverlapOf L < (walkProps L (S.length - minOverlapOf L) S 0).2
          then some false
          else checkCommon S L (walkProps L (S.length - minOverlapOf L) S 0).1) := by
      unfold canBeCombinedCore
      rw [if_neg hov]
    have hsnd := walkProps_snd L (S.length - minOverlapOf L) S 0 (Nat.zero_le _)
    simp only [Nat.zero_add] at hsnd
    by_cases hfaults : S.length - minOverlapOf L < faultsOf S L
    · have hsnd2 : (walkProps L (S.length - minOverlapOf L) S 0).2 =
          S.length - minOverlapOf L + 1 := by
        rw [hsnd, if_pos hfaults]
      have heq : canBeCombinedCore L S = some false := by
        rw [hcore, hsnd2, if_pos (by omega)]
      rw [heq]
      refine ⟨?_, ?_, ?_⟩
      · constructor
        · intro hff
          exact absurd hff (by simp)
        · intro hlt
          exact absurd hlt hov
      · intro hff
        exact absurd hff (by simp)
      · intro hrhs
        omega
    · have hsnd2 : (walkProps L (S.length - minOverlapOf L) S 0).2 = faultsOf S L := by
        rw [hsnd, if_neg hfaults]
      have hfst := walkProps_fst L (S.length - minOverlapOf L) S 0 (by omega)
      have hns : ∀ n ∈ (walkProps L (S.length - minOverlapOf L) S 0).1,
          (alookup n S).isSome = true ∧ (alookup n L).isSome = true := by
        intro n hn
        rw [hfst] at hn
        rw [List.mem_map] at hn
        obtain ⟨p, hp, hpn⟩ := hn
        rw [List.mem_filter] at hp
        subst hpn
        constructor
        · rw [alookup_isSome_iff]
          exact List.mem_map_of_mem Prod.fst hp.1
        · exact hp.2
      have hcc := checkCommon_spec S L (walkProps L (S.length - minOverlapOf L) S 0).1 hns
      have heq : canBeCombinedCore L S =
          checkCommon S L (walkProps L (S.length - minOverlapOf L) S 0).1 := by
        rw [hcore, hsnd2, if_neg hfaults]
      rw [heq]
      refine ⟨?_, ?_⟩
      · constructor
        · intro hnn
          exact absurd hnn hcc.1
        · intro hlt
          exact absurd hlt hov
      · rw [hcc.2]
        constructor
        · intro hall
          refine ⟨by omega, ?_⟩
          intro n ts tl h1 h2 hne1 hne2
          have hnmem : n ∈ (walkProps L (S.length - minOverlapOf L) S 0).1 := by
            rw [hfst, List.mem_map]
            refine ⟨(n, ts), ?_, rfl⟩
            rw [List.mem_filter]
            refine ⟨alookup_eq_some_mem h1, ?_⟩
            rw [h2]
            rfl
          exact hall n hnmem ts tl h1 h2 hne1 hne2
        · intro hco m hm
          exact hco.2 m

theorem canBeCombined_eq (c1 c2 : ClassType) : canBeCombined c1 c2 =
    if 4 * c1.properties.length < 3 * c2.properties.length ∨
        4 * c2.properties.length < 3 * c1.properties.length then some false
    else if c2.properties.length < c1.properties.length then
      canBeCombinedCore c1.properties c2.properties
    else canBeCombinedCore c2.properties c1.properties := rfl

theorem canBeCombined_ne_none (c1 c2 : ClassType) : canBeCombined c1 c2 ≠ none := by
  rw [canBeCombined_eq]
  by_cases gate : 4 * c1.properties.length < 3 * c2.properties.length ∨
      4 * c2.properties.length < 3 * c1.properties.length
  · rw [if_pos gate]
    simp
  · rw [if_neg gate]
    push_neg at gate
    by_cases hlt : c2.properties.length < c1.properties.length
    · rw [if_pos hlt, Ne, (canBeCombinedCore_spec _ _).1]
      unfold minOverlapOf
      omega
    · rw [if_neg hlt, Ne, (canBeCombinedCore_spec _ _).1]
      unfold minOverlapOf
      omega

theorem canBeCombined_some_true_iff (c1 c2 : ClassType) :
    canBeCombined c1 c2 = some true ↔
      3 * (specLarger c1 c2).length ≤ 4 * (specSmaller c1 c2).length ∧
      faultsOf (specSmaller c1 c2) (specLarger c1 c2) +
        minOverlapOf (specLarger c1 c2) ≤ (specSmaller c1 c2).length ∧
      CommonOK (specSmaller c1 c2) (specLarger c1 c2) := by
  rw [canBeCombined_eq]
  unfold specLarger specSmaller
  by_cases hlt : c2.properties.length < c1.properties.length
  · rw [if_pos hlt, if_pos hlt, if_pos hlt]
    by_cases gate : 4 * c1.properties.length < 3 * c2.properties.length ∨
        4 * c2.properties.length < 3 * c1.properties.length
    · rw [if_pos gate]
      constructor
      · intro hff
        exact absurd hff (by simp)
      · intro hrhs
        have h1 := hrhs.1
        rcases gate with hg | hg
        · omega
        · omega
    · rw [if_neg gate]
      rw [(canBeCombinedCore_spec _ _).2]
      push_neg at gate
      constructor
      · intro hx
        exact ⟨by omega, hx.1, hx.2⟩
      · intro hx
        exact ⟨hx.2.1, hx.2.2⟩
  · rw [if_neg hlt, if_neg hlt, if_neg hlt]
    by_cases gate : 4 * c1.properties.length < 3 * c2.properties.length ∨
        4 * c2.properties.length < 3 * c1.properties.length
    · rw [if_pos gate]
      constructor
      · intro hff
        exact absurd hff (by simp)
      · intro hrhs
        have h1 := hrhs.1
        rcases gate with hg | hg
        · omega
        · omega
    · rw [if_neg gate]
      rw [(canBeCombinedCore_spec _ _).2]
      push_neg at gate
      constructor
      · intro hx
        exact ⟨by omega, hx.1, hx.2⟩
      · intro hx
        exact ⟨hx.2.1, hx.2.2⟩

theorem faultsOf_eq_keys (A B : List (Nat × FieldTy)) :
    faultsOf A B = ((A.map Prod.fst).filter (fun n => (alookup n B).isNone)).length := by
  induction A with
  | nil => rfl
  | cons p rest ih =>
    simp only [faultsOf, List.map_cons, List.filter_cons] at *
    by_cases h : (alookup p.1 B).isNone = true
    · rw [if_pos h, if_pos h]
      simp only [List.length_cons]
      rw [ih]
    · rw [if_neg h, if_neg h]
      exact ih

theorem faultsOf_symm (S L : List (Nat × FieldTy)) (hS : PropsNodupKeys S)
    (hL : PropsNodupKeys L) (hlen : S.length = L.length) :
    faultsOf S L = faultsOf L S := by
  have key : ∀ (A B : List (Nat × FieldTy)), PropsNodupKeys A →
      faultsOf A B =
        ((A.map Prod.fst).toFinset \ (B.map Prod.fst).toFinset).card := by
    intro A B hA
    rw [faultsOf_eq_keys]
    have hfe : (A.map Prod.fst).filter (fun n => (alookup n B).isNone) =
        (A.map Prod.fst).filter (fun n => decide (n ∉ B.map Prod.fst)) := by
      apply List.filter_congr
      intro n _
      cases halo : alookup n B with
      | none =>
        have hni : n ∉ B.map Prod.fst := (alookup_eq_none_iff n B).mp halo
        simp [hni]
      | some v =>
        have hni : n ∈ B.map Prod.fst := by
          rw [← alookup_isSome_iff, halo]
          rfl
        simp [hni]
    rw [hfe]
    have hnd : ((A.map Prod.fst).filter (fun n => decide (n ∉ B.map Prod.fst))).Nodup :=
      List.Nodup.filter _ hA
    rw [← List.toFinset_card_of_nodup hnd, List.toFinset_filter]
    rw [Finset.sdiff_eq_filter]
    congr 1
    apply Finset.filter_congr
    intro x _
    simp [List.mem_toFinset]
  rw [key S L hS, key L S hL]
  apply Finset.card_sdiff_comm
  rw [List.toFinset_card_of_nodup hS, List.toFinset_card_of_nodup hL]
  rw [List.length_map, List.length_map]
  exact hlen

theorem CommonOK_swap (S L : List (Nat × FieldTy)) (hS : PropsKindDistinct S)
    (hL : PropsKindDistinct L) (h : CommonOK S L) : CommonOK L S := by
  intro n ts tl h1 h2 hne1 hne2
  have hx := h n tl ts h2 h1 hne2 hne1
  have hdS : KindsDistinct (nonNullTypeCases tl) := hS _ (alookup_eq_some_mem h2)
  have hdL : KindsDistinct (nonNullTypeCases ts) := hL _ (alookup_eq_some_mem h1)
  rw [typeSetsCanBeCombined_symm _ _ hdL hdS]
  exact hx

theorem canBeCombinedCore_symm (L S : List (Nat × FieldTy)) (hlen : L.length = S.length)
    (hSk : PropsNodupKeys S) (hLk : PropsNodupKeys L)
    (hSd : PropsKindDistinct S) (hLd : PropsKindDistinct L) :
    canBeCombinedCore L S = canBeCombinedCore S L := by
  have hmo : minOverlapOf L = minOverlapOf S := by
    unfold minOverlapOf
    rw [hlen]
  apply optionBool_ext
  · rw [Ne, (canBeCombinedCore_spec _ _).1]
    unfold minOverlapOf
    omega
  · rw [Ne, (canBeCombinedCore_spec _ _).1]
    unfold minOverlapOf
    omega
  · rw [(canBeCombinedCore_spec L S).2, (canBeCombinedCore_spec S L).2]
    constructor
    · intro hx
      refine ⟨?_, CommonOK_swap S L hSd hLd hx.2⟩
      rw [← faultsOf_symm S L hSk hLk hlen.symm, ← hmo, hlen]
      exact hx.1
    · intro hx
      refine ⟨?_, CommonOK_swap L S hLd hSd hx.2⟩
      rw [faultsOf_symm S L hSk hLk hlen.symm, hmo, ← hlen]
      exact hx.1

theorem canBeCombined_comm_of_kindDistinct (c1 c2 : ClassType)
    (h1 : NodupKeys c1) (h2 : NodupKeys c2)
    (k1 : KindDistinctFields c1) (k2 : KindDistinctFields c2) :
    canBeCombined c1 c2 = canBeCombined c2 c1 := by
  unfold canBeCombined
  by_cases gate : 4 * c1.properties.length < 3 * c2.properties.length ∨
      4 * c2.properties.length < 3 * c1.properties.length
  · rw [if_pos gate, if_pos (Or.symm gate)]
  · rw [if_neg gate, if_neg (fun hg => gate (Or.symm hg))]
    rcases Nat.lt_trichotomy c1.properties.length c2.properties.length with hl | hl | hl
    · rw [if_neg (show ¬ c2.properties.length < c1.properties.length by omega),
        if_pos hl]
    · rw [if_neg (show ¬ c2.properties.length < c1.properties.length by omega),
        if_neg (show ¬ c1.properties.length < c2.properties.length by omega)]
      exact canBeCombinedCore_symm c2.properties c1.properties hl.symm h1 h2 k1 k2
    · rw [if_pos hl, if_neg (show ¬ c1.properties.length < c2.properties.length by omega)]

theorem cliquePass_len : ∀ (rest clique leftover : List ClassType),
    (cliquePass clique leftover rest).1.length + (cliquePass clique leftover rest).2.length =
      clique.length + leftover.length + rest.length := by
  intro rest
  induction rest with
  | nil =>
    intro cl lo
    simp [cliquePass]
  | cons c rest ih =>
    intro cl lo
    simp only [cliquePass]
    by_cases h : isPartOfClique c cl = true
    · rw [if_pos h, ih]
      simp [List.length_append]
      omega
    · rw [if_neg h, ih]
      simp [List.length_append]
      omega

theorem cliquePass_fst_le : ∀ (rest clique leftover : List ClassType),
    clique.length ≤ (cliquePass clique leftover rest).1.length := by
  intro rest
  induction rest with
  | nil =>
    intro cl lo
    simp [cliquePass]
  | cons c rest ih =>
    intro cl lo
    simp only [cliquePass]
    by_cases h : isPartOfClique c cl = true
    · rw [if_pos h]
      have := ih (cl ++ [c]) lo
      simp [List.length_append] at this
      omega
    · rw [if_neg h]
      exact ih cl (lo ++ [c])

theorem cliquePass_perm : ∀ (rest clique leftover : List ClassType),
    ((cliquePass clique leftover rest).1 ++ (cliquePass clique leftover rest).2).Perm
      (clique ++ leftover ++ rest) := by
  intro rest
  induction rest with
  | nil =>
    intro cl lo
    simp [cliquePass]
  | cons c rest ih =>
    intro cl lo
    simp only [cliquePass]
    by_cases h : isPartOfClique c cl = true
    · rw [if_pos h]
      refine (ih (cl ++ [c]) lo).trans ?_
      have e1 : cl ++ [c] ++ lo ++ rest = cl ++ ([c] ++ (lo ++ rest)) := by
        simp [List.append_assoc]
      have e2 : cl ++ lo ++ (c :: rest) = cl ++ (lo ++ (c :: rest)) := by
        simp [List.append_assoc]
      rw [e1, e2]
      apply List.Perm.append_left
      have hmid : (lo ++ c :: rest).Perm (c :: (lo ++ rest)) := List.perm_middle
      simpa using hmid.symm
    · rw [if_neg h]
      refine (ih cl (lo ++ [c])).trans ?_
      have e1 : cl ++ (lo ++ [c]) ++ rest = cl ++ lo ++ (c :: rest) := by
        simp [List.append_assoc]
      rw [e1]

theorem cliquePass_fst_pairwise : ∀ (rest clique leftover : List ClassType),
    clique.Pairwise (fun a b => canCombineB b a = true) →
    (cliquePass clique leftover rest).1.Pairwise (fun a b => canCombineB b a = true) := by
  intro rest
  induction rest with
  | nil =>
    intro cl lo h
    simpa [cliquePass] using h
  | cons c rest ih =>
    intro cl lo h
    simp only [cliquePass]
    by_cases hp : isPartOfClique c cl = true
    · rw [if_pos hp]
      apply ih
      rw [List.pairwise_append]
      refine ⟨h, List.pairwise_singleton _ _, ?_⟩
      intro a ha b hb
      rw [List.mem_singleton] at hb
      subst hb
      unfold isPartOfClique at hp
      rw [List.all_eq_true] at hp
      exact hp a ha
    · rw [if_neg hp]
      exact ih cl (lo ++ [c]) h

theorem buildCliquesGo_mem : ∀ (fuel : Nat) (l cl : List ClassType),
    cl ∈ buildCliquesGo fuel l → ∀ c ∈ cl, c ∈ l := by
  intro fuel
  induction fuel with
  | zero =>
    intro l cl hcl
    cases l with
    | nil => simp [buildCliquesGo] at hcl
    | cons a rest => simp [buildCliquesGo] at hcl
  | succ fuel ih =>
    intro l cl hcl
    cases l with
    | nil => simp [buildCliquesGo] at hcl
    | cons a rest =>
      simp only [buildCliquesGo] at hcl
      rw [List.mem_append] at hcl
      intro c hc
      have hperm := cliquePass_perm rest [a] []
      rcases hcl with hcl | hcl
      · have hcleq : cl = (cliquePass [a] [] rest).1 := by
          by_cases h1 : 1 < (cliquePass [a] [] rest).1.length
          · rw [if_pos h1] at hcl
            simpa using hcl
          · rw [if_neg h1] at hcl
            simp at hcl
        subst hcleq
        have hm : c ∈ (cliquePass [a] [] rest).1 ++ (cliquePass [a] [] rest).2 :=
          List.mem_append_left _ hc
        have := hperm.mem_iff.mp hm
        simpa using this
      · have hrec := ih (cliquePass [a] [] rest).2 cl hcl c hc
        have hm : c ∈ (cliquePass [a] [] rest).1 ++ (cliquePass [a] [] rest).2 :=
          List.mem_append_right _ hrec
        have := hperm.mem_iff.mp hm
        simpa using this

theorem buildCliquesGo_cliques : ∀ (fuel : Nat) (l cl : List ClassType),
    cl ∈ buildCliquesGo fuel l →
    2 ≤ cl.length ∧ cl.Pairwise (fun a b => canCombineB b a = true) := by
  intro fuel
  induction fuel with
  | zero =>
    intro l cl hcl
    cases l with
    | nil => simp [buildCliquesGo] at hcl
    | cons a rest => simp [buildCliquesGo] at hcl
  | succ fuel ih =>
    intro l cl hcl
    cases l with
    | nil => simp [buildCliquesGo] at hcl
    | cons a rest =>
      simp only [buildCliquesGo] at hcl
      rw [List.mem_append] at hcl
      rcases hcl with hcl | hcl
      · by_cases h1 : 1 < (cliquePass [a] [] rest).1.length
        · rw [if_pos h1] at hcl
          rw [List.mem_singleton] at hcl
          subst hcl
          refine ⟨h1, ?_⟩
          exact cliquePass_fst_pairwise rest [a] [] (List.pairwise_singleton _ _)
        · rw [if_neg h1] at hcl
          simp at hcl
      · exact ih (cliquePass [a] [] rest).2 cl hcl

theorem buildCliquesGo_disjoint : ∀ (fuel : Nat) (l : List ClassType), l.Nodup →
    (buildCliquesGo fuel l).Pairwise (fun cl1 cl2 => ∀ c, c ∈ cl1 → c ∉ cl2) ∧
    (∀ cl ∈ buildCliquesGo fuel l, cl.Nodup) := by
  intro fuel
  induction fuel with
  | zero =>
    intro l hl
    cases l with
    | nil => simp [buildCliquesGo]
    | cons a rest => simp [buildCliquesGo]
  | succ fuel ih =>
    intro l hl
    cases l with
    | nil => simp [buildCliquesGo]
    | cons a rest =>
      simp only [buildCliquesGo]
      have hperm : ((cliquePass [a] [] rest).1 ++ (cliquePass [a] [] rest).2).Perm (a :: rest) := by
        simpa using cliquePass_perm rest [a] []
      have hnodup : ((cliquePass [a] [] rest).1 ++ (cliquePass [a] [] rest).2).Nodup :=
        hperm.nodup_iff.mpr hl
      rw [List.nodup_append] at hnodup
      obtain ⟨hn1, hn2, hdisj⟩ := hnodup
      have hrec := ih (cliquePass [a] [] rest).2 hn2
      constructor
      · rw [List.pairwise_append]
        refine ⟨?_, hrec.1, ?_⟩
        · by_cases h1 : 1 < (cliquePass [a] [] rest).1.length
          · rw [if_pos h1]
            exact List.pairwise_singleton _ _
          · rw [if_neg h1]
            exact List.Pairwise.nil
        · intro cl1 hcl1 cl2 hcl2 c hc1
          have hcl1eq : cl1 = (cliquePass [a] [] rest).1 := by
            by_cases h1 : 1 < (cliquePass [a] [] rest).1.length
            · rw [if_pos h1] at hcl1
              simpa using hcl1
            · rw [if_neg h1] at hcl1
              simp at hcl1
          subst hcl1eq
          intro hc2
          have hc2mem := buildCliquesGo_mem fuel (cliquePass [a] [] rest).2 cl2 hcl2 c hc2
          exact hdisj hc1 hc2mem
      · intro cl hcl
        rw [List.mem_append] at hcl
        rcases hcl with hcl | hcl
        · have : cl = (cliquePass [a] [] rest).1 := by
            by_cases h1 : 1 < (cliquePass [a] [] rest).1.length
            · rw [if_pos h1] at hcl
              simpa using hcl
            · rw [if_neg h1] at hcl
              simp at hcl
          subst this
          exact hn1
        · exact hrec.2 cl hcl

theorem buildCliquesGo_fuel : ∀ (n m : Nat) (l : List ClassType),
    l.length ≤ n → l.length ≤ m → buildCliquesGo n l = buildCliquesGo m l := by
  intro n
  induction n with
  | zero =>
    intro m l hn hm
    cases l with
    | nil => cases m <;> simp [buildCliquesGo]
    | cons a rest => simp at hn
  | succ n ih =>
    intro m l hn hm
    cases l with
    | nil => cases m <;> simp [buildCliquesGo]
    | cons a rest =>
      cases m with
      | zero => simp at hm
      | succ m =>
        simp only [buildCliquesGo]
        congr 1
        have h1 : (cliquePass [a] [] rest).1.length + (cliquePass [a] [] rest).2.length =
            1 + rest.length := by
          simpa using cliquePass_len rest [a] []
        have h2 : 1 ≤ (cliquePass [a] [] rest).1.length := by
          simpa using cliquePass_fst_le rest [a] []
        have h3 : rest.length + 1 ≤ n + 1 := by simpa using hn
        have h4 : rest.length + 1 ≤ m + 1 := by simpa using hm
        apply ih <;> omega

theorem alookup_map_addcount (r l : List (Nat × Nat)) (k : Nat) :
    alookup k (l.map (fun p => (p.1, match alookup p.1 r with
      | some b => p.2 + b
      | none => p.2))) =
    (alookup k l).map (fun a => match alookup k r with
      | some b => a + b
      | none => a) := by
  induction l with
  | nil => simp [alookup]
  | cons p rest ih =>
    by_cases h : p.1 = k
    · subst h
      simp [alookup]
    · simp [alookup, h, ih]

theorem alookup_filter_keep {β : Type} (q : Nat × β → Bool) (r : List (Nat × β)) (k : Nat)
    (hq : ∀ p : Nat × β, p.1 = k → q p = true) :
    alookup k (r.filter q) = alookup k r := by
  induction r with
  | nil => simp
  | cons p rest ih =>
    by_cases h : p.1 = k
    · rw [List.filter_cons, if_pos (hq p h)]
      simp [alookup, h, ih]
    · rw [List.filter_cons]
      by_cases hqp : q p = true
      · rw [if_pos hqp]
        simp [alookup, h, ih]
      · rw [if_neg hqp, ih]
        simp [alookup, h]

theorem alookup_append {β : Type} (k : Nat) (l r : List (Nat × β)) :
    alookup k (l ++ r) = match alookup k l with
      | some v => some v
      | none => alookup k r := by
  induction l with
  | nil => simp [alookup]
  | cons p rest ih =>
    by_cases h : p.1 = k <;> simp [alookup, h, ih]

theorem histCount_mergeWithAdd (l r : List (Nat × Nat)) (k : Nat) :
    histCount (mergeWithAdd l r) k = histCount l k + histCount r k := by
  unfold mergeWithAdd histCount
  rw [alookup_append, alookup_map_addcount]
  cases hl : alookup k l with
  | some a =>
    simp only [Option.map_some']
    cases hr : alookup k r <;> simp
  | none =>
    simp only [Option.map_none']
    rw [alookup_filter_keep _ _ _ (fun p hp => by rw [hp, hl]; rfl)]
    cases hr : alookup k r <;> simp

theorem histCount_foldl (hs : List (List (Nat × Nat))) : ∀ (h : List (Nat × Nat)) (k : Nat),
    histCount (hs.foldl mergeWithAdd h) k =
      histCount h k + (hs.map (fun hh => histCount hh k)).sum := by
  induction hs with
  | nil =>
    intro h k
    simp
  | cons hh rest ih =>
    intro h k
    simp only [List.foldl_cons, List.map_cons, List.sum_cons]
    rw [ih, histCount_mergeWithAdd]
    omega

theorem makePropertyType_nil (names : List Nat) (b : Bool) :
    makePropertyType names [] b =
      some (if b then MergedProp.nullableWrap MergedProp.primNull names
        else MergedProp.primNull) := rfl

theorem makePropertyType_nullable (names : List Nat) (types : List FieldTy) (r : MergedProp)
    (h : makePropertyType names types true = some r) :
    ∃ inner, r = MergedProp.nullableWrap inner names := by
  unfold makePropertyType at h
  cases hE : makePropertyCore names types with
  | none =>
    rw [hE] at h
    exact absurd h (by simp)
  | some t =>
    rw [hE] at h
    simp only [if_true, Option.some.injEq] at h
    exact ⟨t, h.symm⟩

theorem makePropertyCore_abort (names : List Nat) (first : FieldTy) (rest : List FieldTy)
    (hstr : first.isString = true)
    (hbad : ¬ ∀ t ∈ first :: rest, FieldTy.isString t = true) :
    makePropertyCore names (first :: rest) = none := by
  simp only [makePropertyCore]
  rw [if_pos hstr, if_neg]
  intro hall
  rw [List.all_eq_true] at hall
  exact hbad hall

theorem makePropertyType_abort (names : List Nat) (first : FieldTy) (rest : List FieldTy)
    (b : Bool) (hstr : first.isString = true)
    (hbad : ¬ ∀ t ∈ first :: rest, FieldTy.isString t = true) :
    makePropertyType names (first :: rest) b = none := by
  unfold makePropertyType
  rw [makePropertyCore_abort names first rest hstr hbad]

theorem Ty.kind_string_iff (t : Ty) : t.kind = TKind.stringKind ↔ ∃ e, t = Ty.str e := by
  cases t with
  | prim k => cases k <;> simp [Ty.kind]
  | str e => simp [Ty.kind]
  | cls i => simp [Ty.kind]

theorem typeSets_singleton_kind {a b : Ty}
    (h : typeSetsCanBeCombined [a] [b] = true) : a.kind = b.kind := by
  by_cases hk : b.kind = a.kind
  · exact hk.symm
  · exfalso
    have hnone : kindIndexGet [b] a.kind = none := by
      unfold kindIndexGet
      rw [List.filter_cons]
      rw [if_neg (by simp [hk])]
      rfl
    unfold typeSetsCanBeCombined at h
    simp only [List.length_singleton, ne_eq, not_true_eq_false, if_false, List.all_cons,
      List.all_nil, Bool.and_true] at h
    rw [hnone] at h
    exact absurd h (by simp)

theorem filterMap_histOf_all_some : ∀ (types : List FieldTy),
    (∀ t ∈ types, (histOf t).isSome = true) →
    types.filterMap histOf = types.map (fun t => (histOf t).getD []) := by
  intro types
  induction types with
  | nil => intro _; rfl
  | cons t rest ih =>
    intro hall
    obtain ⟨h, hh⟩ := Option.isSome_iff_exists.mp (hall t (List.mem_cons_self t rest))
    rw [List.filterMap_cons, List.map_cons, hh]
    simp only [Option.getD_some]
    rw [ih (fun u hu => hall u (List.mem_cons_of_mem t hu))]

theorem mergedEnumCases_spec (types : List FieldTy) (hne : types ≠ [])
    (hall : ∀ t ∈ types, (histOf t).isSome = true) :
    ∃ m, mergedEnumCases types = some m ∧
      ∀ k, histCount m k =
        (types.map (fun t => histCount ((histOf t).getD []) k)).sum := by
  unfold mergedEnumCases
  rw [filterMap_histOf_all_some types hall]
  cases types with
  | nil => exact absurd rfl hne
  | cons t rest =>
    simp only [List.map_cons]
    refine ⟨_, rfl, ?_⟩
    intro k
    rw [histCount_foldl]
    simp only [List.map_map, List.sum_cons]
    rfl

theorem makePropertyType_enum_merge (names : List Nat) (types : List FieldTy)
    (hne : types ≠ []) (hall : ∀ t ∈ types, (histOf t).isSome = true) :
    ∃ m, mergedEnumCases types = some m ∧
      makePropertyType names types false = some (MergedProp.stringTy names m) ∧
      ∀ k, histCount m k =
        (types.map (fun t => histCount ((histOf t).getD []) k)).sum := by
  obtain ⟨m, hm, hsum⟩ := mergedEnumCases_spec types hne hall
  refine ⟨m, hm, ?_, hsum⟩
  cases types with
  | nil => exact absurd rfl hne
  | cons first rest =>
    have hfs : (histOf first).isSome = true := hall first (List.mem_cons_self first rest)
    have hstr : first.isString = true := by
      cases first with
      | single x =>
        cases x with
        | prim k => simp [histOf] at hfs
        | str e => rfl
        | cls i => simp [histOf] at hfs
      | union ms => simp [histOf] at hfs
    have hallstr : (first :: rest).all FieldTy.isString = true := by
      rw [List.all_eq_true]
      intro t ht
      have hts := hall t ht
      cases t with
      | single x =>
        cases x with
        | prim k => simp [histOf] at hts
        | str e => rfl
        | cls i => simp [histOf] at hts
      | union ms => simp [histOf] at hts
    have hallhist : ((first :: rest).all fun t => (histOf t).isSome) = true := by
      rw [List.all_eq_true]
      exact hall
    have hcore : makePropertyCore names (first :: rest) =
        some (MergedProp.stringTy names m) := by
      simp only [makePropertyCore]
      rw [if_pos hstr, if_pos hallstr, if_pos hallhist, hm]
    unfold makePropertyType
    rw [hcore]
    rfl

theorem canBeCombined_field_kinds {a b : ClassType}
    (h : canBeCombined a b = some true)
    (ha : AtomFields a) (hb : AtomFields b) :
    ∀ n ta tb, alookup n a.properties = some ta → alookup n b.properties = some tb →
      FieldTy.kind ta = FieldTy.kind tb := by
  intro n ta tb hta htb
  have hat : ta.isNonNullAtom = true := ha _ (alookup_eq_some_mem hta)
  have hbt : tb.isNonNullAtom = true := hb _ (alookup_eq_some_mem htb)
  obtain ⟨xa, rfl⟩ : ∃ x, ta = FieldTy.single x := by
    cases ta with
    | single t => exact ⟨t, rfl⟩
    | union ms => simp [FieldTy.isNonNullAtom] at hat
  obtain ⟨xb, rfl⟩ : ∃ x, tb = FieldTy.single x := by
    cases tb with
    | single t => exact ⟨t, rfl⟩
    | union ms => simp [FieldTy.isNonNullAtom] at hbt
  have hka : ¬ xa.kind = TKind.nullKind := by
    simpa [FieldTy.isNonNullAtom] using hat
  have hkb : ¬ xb.kind = TKind.nullKind := by
    simpa [FieldTy.isNonNullAtom] using hbt
  have hca : nonNullTypeCases (FieldTy.single xa) = [xa] := by
    simp [nonNullTypeCases, hka]
  have hcb : nonNullTypeCases (FieldTy.single xb) = [xb] := by
    simp [nonNullTypeCases, hkb]
  rw [canBeCombined_some_true_iff] at h
  obtain ⟨_, _, hco⟩ := h
  unfold specSmaller specLarger at hco
  show xa.kind = xb.kind
  by_cases hlt : b.properties.length < a.properties.length
  · rw [if_pos hlt, if_pos hlt] at hco
    have hx := hco n (FieldTy.single xb) (FieldTy.single xa) htb hta
      (by rw [hcb]; simp) (by rw [hca]; simp)
    rw [hcb, hca] at hx
    exact (typeSets_singleton_kind hx).symm
  · rw [if_neg hlt, if_neg hlt] at hco
    have hx := hco n (FieldTy.single xa) (FieldTy.single xb) hta htb
      (by rw [hca]; simp) (by rw [hcb]; simp)
    rw [hca, hcb] at hx
    exact typeSets_singleton_kind hx

theorem clique_fieldTypes_kind_uniform (l clique : List ClassType)
    (hcl : clique ∈ buildCliques l) (hatoms : ∀ c ∈ clique, AtomFields c) :
    ∀ n t1 t2, t1 ∈ cliqueFieldTypes clique n → t2 ∈ cliqueFieldTypes clique n →
      FieldTy.kind t1 = FieldTy.kind t2 := by
  intro n t1 t2 h1 h2
  unfold cliqueFieldTypes at h1 h2
  rw [List.mem_filterMap] at h1 h2
  obtain ⟨c1, hc1, he1⟩ := h1
  obtain ⟨c2, hc2, he2⟩ := h2
  by_cases hcc : c1 = c2
  · subst hcc
    rw [he1] at he2
    cases he2
    rfl
  · have hpw := (buildCliquesGo_cliques l.length l clique hcl).2
    have hsym : clique.Pairwise
        (fun x y => canCombineB y x = true ∨ canCombineB x y = true) :=
      hpw.imp (fun hr => Or.inl hr)
    have hor := List.Pairwise.forall
      (fun x y hxy => Or.symm hxy) hsym hc1 hc2 hcc
    rcases hor with hca | hca
    · have hx : canBeCombined c2 c1 = some true := by
        simpa [canCombineB] using hca
      exact (canBeCombined_field_kinds hx (hatoms c2 hc2) (hatoms c1 hc1) n t2 t1 he2 he1).symm
    · have hx : canBeCombined c1 c2 = some true := by
        simpa [canCombineB] using hca
      exact canBeCombined_field_kinds hx (hatoms c1 hc1) (hatoms c2 hc2) n t1 t2 he1 he2

theorem makePropertyCore_ne_none (names : List Nat) (types : List FieldTy)
    (huniform : ∀ t1 ∈ types, ∀ t2 ∈ types, FieldTy.kind t1 = FieldTy.kind t2)
    (hatom : ∀ t ∈ types, t.isNonNullAtom = true) :
    makePropertyCore names types ≠ none := by
  cases types with
  | nil => simp [makePropertyCore]
  | cons first rest =>
    simp only [makePropertyCore]
    by_cases hs : first.isString = true
    · rw [if_pos hs]
      have hfk : first.kind = TKind.stringKind := by
        cases first with
        | single x =>
          cases x with
          | prim k => simp [FieldTy.isString] at hs
          | str e => rfl
          | cls i => simp [FieldTy.isString] at hs
        | union ms => simp [FieldTy.isString] at hs
      have hall : (first :: rest).all FieldTy.isString = true := by
        rw [List.all_eq_true]
        intro t ht
        have hk := huniform t ht first (List.mem_cons_self first rest)
        have hta := hatom t ht
        cases t with
        | union ms => simp [FieldTy.isNonNullAtom] at hta
        | single x =>
          have hxk : x.kind = TKind.stringKind := by
            have : (FieldTy.single x).kind = TKind.stringKind := hk.trans hfk
            simpa [FieldTy.kind] using this
          obtain ⟨e, rfl⟩ := (Ty.kind_string_iff x).mp hxk
          rfl
      rw [if_pos hall]
      by_cases he : ((first :: rest).all fun t => (histOf t).isSome) = true
      · rw [if_pos he]
        have hfs : (histOf first).isSome = true := by
          rw [List.all_eq_true] at he
          exact he first (List.mem_cons_self first rest)
        obtain ⟨h0, hh0⟩ := Option.isSome_iff_exists.mp hfs
        unfold mergedEnumCases
        rw [List.filterMap_cons, hh0]
        simp
      · rw [if_neg he]
        simp
    · rw [if_neg hs]
      simp

theorem makePropertyType_clique_ne_none (l clique : List ClassType)
    (hcl : clique ∈ buildCliques l) (hatoms : ∀ c ∈ clique, AtomFields c)
    (names : List Nat) (n : Nat) (b : Bool) :
    makePropertyType names (cliqueFieldTypes clique n) b ≠ none := by
  have huni := clique_fieldTypes_kind_uniform l clique hcl hatoms n
  have hatom : ∀ t ∈ cliqueFieldTypes clique n, t.isNonNullAtom = true := by
    intro t ht
    unfold cliqueFieldTypes at ht
    rw [List.mem_filterMap] at ht
    obtain ⟨c, hc, he⟩ := ht
    exact hatoms c hc _ (alookup_eq_some_mem he)
  have hcore := makePropertyCore_ne_none names (cliqueFieldTypes clique n)
    (fun t1 h1 t2 h2 => huni t1 t2 h1 h2) hatom
  unfold makePropertyType
  cases hE : makePropertyCore names (cliqueFieldTypes clique n) with
  | none => exact absurd hE hcore
  | some t => simp

/-- C1, counterexample: `canBeCombined` is NOT commutative.  `exRecA`'s one
field has the non-null member set {plain string, enum string} (two
string-kind members) and `exRecB`'s has {class, plain string}.  Checking
A against B's kind index accepts every member (string-kind pairs always
pass), but checking B against A's kind index fails: the class member finds
no class-kind entry.  So `canCombine(A, B)` is true while `canCombine(B, A)`
is false. -/
theorem c1_counterexample :
    canBeCombined exRecA exRecB = some true ∧
    canBeCombined exRecB exRecA = some false := by
  constructor
  · decide
  · decide

/-- C1 (amended): `canCombine` is commutative for record types with unique
field names whose fields' non-null member sets each contain at most one
member of any kind (in particular at most one string-kind member) — this
includes every pair with field mappings of equal size. -/
theorem c1_canCombine_comm (c1 c2 : ClassType) (h1 : NodupKeys c1) (h2 : NodupKeys c2)
    (k1 : KindDistinctFields c1) (k2 : KindDistinctFields c2) :
    canBeCombined c1 c2 = canBeCombined c2 c1 :=
  canBeCombined_comm_of_kindDistinct c1 c2 h1 h2 k1 k2

/-- Witness for C1 at a concrete pair of equal-size records. -/
theorem c1_canCombine_comm_witness :
    NodupKeys exRecW1 ∧ NodupKeys exRecW2 ∧
    KindDistinctFields exRecW1 ∧ KindDistinctFields exRecW2 ∧
    canBeCombined exRecW1 exRecW2 = canBeCombined exRecW2 exRecW1 :=
  ⟨by unfold NodupKeys PropsNodupKeys; decide,
   by unfold NodupKeys PropsNodupKeys; decide,
   by unfold KindDistinctFields PropsKindDistinct KindsDistinct; decide,
   by unfold KindDistinctFields PropsKindDistinct KindsDistinct; decide,
   c1_canCombine_comm exRecW1 exRecW2
     (by unfold NodupKeys PropsNodupKeys; decide)
     (by unfold NodupKeys PropsNodupKeys; decide)
     (by unfold KindDistinctFields PropsKindDistinct KindsDistinct; decide)
     (by unfold KindDistinctFields PropsKindDistinct KindsDistinct; decide)⟩

/-- C2, counterexample: with `s1 = s2 = [class 0, class 1]` every member of
`s1` has a structurally equal same-kind counterpart in `s2` and the sizes
match, so the claim says `typeSetsCanBeCombined` returns true — but the
kind index of `s2` keeps only the LAST class-kind member, so `class 0` is
compared against `class 1` and the function returns false. -/
theorem c2_counterexample :
    typeSetsCanBeCombined [Ty.cls 0, Ty.cls 1] [Ty.cls 0, Ty.cls 1] = false ∧
    ([Ty.cls 0, Ty.cls 1].length = [Ty.cls 0, Ty.cls 1].length ∧
      ∀ t ∈ [Ty.cls 0, Ty.cls 1], ∃ u ∈ [Ty.cls 0, Ty.cls 1],
        u.kind = t.kind ∧ (t = u ∨ t.kind = TKind.stringKind)) := by
  constructor
  · decide
  · decide

/-- C2 (amended): when the members of `s2` have pairwise distinct kinds (so
the kind index of `s2` is lossless), `typeSetsCanBeCombined s1 s2` returns
true iff the sizes match and every member of `s1` has a same-kind
counterpart in `s2` that is structurally equal to it or string-kind (both
are then string-kind); any other mismatch returns false. -/
theorem c2_typeSets_iff (s1 s2 : List Ty) (h2 : KindsDistinct s2) :
    typeSetsCanBeCombined s1 s2 = true ↔
      s1.length = s2.length ∧
      ∀ t ∈ s1, ∃ u ∈ s2, u.kind = t.kind ∧ (t = u ∨ t.kind = TKind.stringKind) :=
  typeSetsCanBeCombined_char s1 s2 h2

/-- Witness for C2 at concrete singleton member sets. -/
theorem c2_typeSets_iff_witness :
    KindsDistinct [exStrPlain] ∧
    (typeSetsCanBeCombined [exStrPlain] [exStrPlain] = true ↔
      ([exStrPlain] : List Ty).length = ([exStrPlain] : List Ty).length ∧
      ∀ t ∈ [exStrPlain], ∃ u ∈ [exStrPlain],
        Ty.kind u = Ty.kind t ∧ (t = u ∨ Ty.kind t = TKind.stringKind)) :=
  ⟨by unfold KindsDistinct; decide,
   c2_typeSets_iff [exStrPlain] [exStrPlain] (by unfold KindsDistinct; decide)⟩

/-- C3: for record types with unique field names, `canBeCombined` returns
`some true` exactly when the size-ratio gate passes
(`3 * larger.size ≤ 4 * smaller.size`, i.e. `smaller ≥ larger * 0.75`),
the number of fields of `smaller` absent from `larger` stays within
`maxFaults = smaller.size - ceil(larger.size * 0.75)` (phrased additively
to avoid truncated subtraction), and every common field whose two sides
both have non-empty non-null member sets passes the type-set check; a
null-only side never blocks. -/
theorem c3_canCombine_iff (c1 c2 : ClassType) (_h1 : NodupKeys c1) (_h2 : NodupKeys c2) :
    canBeCombined c1 c2 = some true ↔
      3 * (specLarger c1 c2).length ≤ 4 * (specSmaller c1 c2).length ∧
      faultsOf (specSmaller c1 c2) (specLarger c1 c2) +
        minOverlapOf (specLarger c1 c2) ≤ (specSmaller c1 c2).length ∧
      CommonOK (specSmaller c1 c2) (specLarger c1 c2) :=
  canBeCombined_some_true_iff c1 c2

/-- Witness for C3 at a concrete pair of combinable records. -/
theorem c3_canCombine_iff_witness :
    NodupKeys exRecW1 ∧ NodupKeys exRecW2 ∧
    (canBeCombined exRecW1 exRecW2 = some true ↔
      3 * (specLarger exRecW1 exRecW2).length ≤ 4 * (specSmaller exRecW1 exRecW2).length ∧
      faultsOf (specSmaller exRecW1 exRecW2) (specLarger exRecW1 exRecW2) +
        minOverlapOf (specLarger exRecW1 exRecW2) ≤ (specSmaller exRecW1 exRecW2).length ∧
      CommonOK (specSmaller exRecW1 exRecW2) (specLarger exRecW1 exRecW2)) :=
  ⟨by unfold NodupKeys PropsNodupKeys; decide,
   by unfold NodupKeys PropsNodupKeys; decide,
   c3_canCombine_iff exRecW1 exRecW2
     (by unfold NodupKeys PropsNodupKeys; decide)
     (by unfold NodupKeys PropsNodupKeys; decide)⟩

/-- C4: whenever the size-ratio gate passes,
`maxFaults = smaller.size - minOverlap` is non-negative
(`minOverlap ≤ smaller.size`), so the "Max faults negative" assertion
(modelled as the `none` result) never fires. -/
theorem c4_maxFaults_nonneg (c1 c2 : ClassType)
    (hgate : ¬ (4 * c1.properties.length < 3 * c2.properties.length ∨
      4 * c2.properties.length < 3 * c1.properties.length)) :
    minOverlapOf (specLarger c1 c2) ≤ (specSmaller c1 c2).length ∧
    canBeCombined c1 c2 ≠ none := by
  constructor
  · unfold specLarger specSmaller minOverlapOf
    push_neg at hgate
    by_cases hlt : c2.properties.length < c1.properties.length
    · rw [if_pos hlt, if_pos hlt]
      omega
    · rw [if_neg hlt, if_neg hlt]
      omega
  · exact canBeCombined_ne_none c1 c2

/-- Witness for C4 at a concrete gate-passing pair. -/
theorem c4_maxFaults_nonneg_witness :
    ¬ (4 * exRecW1.properties.length < 3 * exRecW2.properties.length ∨
      4 * exRecW2.properties.length < 3 * exRecW1.properties.length) ∧
    (minOverlapOf (specLarger exRecW1 exRecW2) ≤ (specSmaller exRecW1 exRecW2).length ∧
      canBeCombined exRecW1 exRecW2 ≠ none) :=
  ⟨by decide, c4_maxFaults_nonneg exRecW1 exRecW2 (by decide)⟩

/-- C5, counterexample: the clique builder run on `[exRecB, exRecA]` emits
the clique `[exRecB, exRecA]` (the candidate `exRecA` passes
`canCombine(A, B)` against the seed), yet the pair in the other order
fails: `canCombine(B, A)` is false.  So not every ordered pair of distinct
members of an emitted clique satisfies `canCombine`. -/
theorem c5_counterexample :
    buildCliques [exRecB, exRecA] = [[exRecB, exRecA]] ∧
    canBeCombined exRecB exRecA = some false := by
  constructor
  · decide
  · decide

/-- C5 (amended): every emitted clique has at least 2 members, and every
pair of distinct members satisfies `canCombine` with the later-admitted
member as first argument (each candidate was checked against all current
members); both orders hold when the predicate is commutative. -/
theorem c5_cliques_pairwise (l clique : List ClassType) (h : clique ∈ buildCliques l) :
    2 ≤ clique.length ∧ clique.Pairwise (fun a b => canCombineB b a = true) :=
  buildCliquesGo_cliques l.length l clique h

/-- Witness for C5 at a concrete two-element input. -/
theorem c5_cliques_pairwise_witness :
    [exRecW1, exRecW2] ∈ buildCliques [exRecW1, exRecW2] ∧
    (2 ≤ ([exRecW1, exRecW2] : List ClassType).length ∧
      ([exRecW1, exRecW2] : List ClassType).Pairwise (fun a b => canCombineB b a = true)) :=
  ⟨by decide, c5_cliques_pairwise [exRecW1, exRecW2] [exRecW1, exRecW2] (by decide)⟩

/-- C6: a pinned (`isFixed`) record type never appears in any clique
produced by the combine pass, whatever the graph. -/
theorem c6_pinned_never_in_clique (g : TypeGraph) (clique : List ClassType)
    (c : ClassType) (hcl : clique ∈ combineCliques g) (hc : c ∈ clique) :
    c.isFixed = false := by
  unfold combineCliques at hcl
  have hmem := buildCliquesGo_mem _ _ clique hcl c hc
  rw [List.mem_filter] at hmem
  simpa using hmem.2

/-- Witness for C6 at a concrete graph holding a pinned record. -/
theorem c6_pinned_never_in_clique_witness :
    [exRecW1, exRecW2] ∈ combineCliques ⟨[exRecW1, exRecW2, exRecP]⟩ ∧
    exRecW1 ∈ [exRecW1, exRecW2] ∧ exRecW1.isFixed = false :=
  ⟨by decide, by decide,
   c6_pinned_never_in_clique ⟨[exRecW1, exRecW2, exRecP]⟩ [exRecW1, exRecW2] exRecW1
     (by decide) (by decide)⟩

/-- C7: when every member type of a merged field is an enumerated string
(carries a histogram), the merged field is one enumerated string type whose
histogram assigns each literal value the sum of that value's counts across
all members' histograms; in particular merging enum{red: 2} with
enum{blue: 5, red: 1} (red interned as 0, blue as 1) yields
enum{red: 3, blue: 5}. -/
theorem c7_enum_histogram_merge :
    (∀ (names : List Nat) (types : List FieldTy), types ≠ [] →
      (∀ t ∈ types, (histOf t).isSome = true) →
      ∃ m, mergedEnumCases types = some m ∧
        makePropertyType names types false = some (MergedProp.stringTy names m) ∧
        ∀ k, histCount m k =
          (types.map (fun t => histCount ((histOf t).getD []) k)).sum) ∧
    makePropertyType [] [exEnumRed, exEnumBlueRed] false =
      some (MergedProp.stringTy [] [(0, 3), (1, 5)]) :=
  ⟨fun names types hne hall => makePropertyType_enum_merge names types hne hall,
   by decide⟩

/-- Witness for C7 at the two concrete enumerated strings of the claim. -/
theorem c7_enum_histogram_merge_witness :
    ([exEnumRed, exEnumBlueRed] : List FieldTy) ≠ [] ∧
    (∀ t ∈ [exEnumRed, exEnumBlueRed], (histOf t).isSome = true) ∧
    (∃ m, mergedEnumCases [exEnumRed, exEnumBlueRed] = some m ∧
      makePropertyType [] [exEnumRed, exEnumBlueRed] false =
        some (MergedProp.stringTy [] m) ∧
      ∀ k, histCount m k =
        ([exEnumRed, exEnumBlueRed].map (fun t => histCount ((histOf t).getD []) k)).sum) :=
  ⟨by decide, by decide,
   c7_enum_histogram_merge.1 [] [exEnumRed, exEnumBlueRed] (by decide) (by decide)⟩

/-- C8: an empty member type set merges to the null primitive (wrapped when
the field is nullable), and whenever `isNullable` is set the merged result
is a nullable wrapper carrying the field's name hints. -/
theorem c8_empty_and_nullable :
    (∀ (names : List Nat) (b : Bool), makePropertyType names [] b =
      some (if b then MergedProp.nullableWrap MergedProp.primNull names
        else MergedProp.primNull)) ∧
    (∀ (names : List Nat) (types : List FieldTy) (r : MergedProp),
      makePropertyType names types true = some r →
      ∃ inner, r = MergedProp.nullableWrap inner names) :=
  ⟨makePropertyType_nil, makePropertyType_nullable⟩

/-- Witness for C8 at a concrete nullable single-string field. -/
theorem c8_empty_and_nullable_witness :
    makePropertyType [] [FieldTy.single exStrPlain] true =
      some (MergedProp.nullableWrap (MergedProp.reconstituted (FieldTy.single exStrPlain)) []) ∧
    ∃ inner,
      MergedProp.nullableWrap (MergedProp.reconstituted (FieldTy.single exStrPlain)) [] =
        MergedProp.nullableWrap inner [] :=
  ⟨by decide,
   c8_empty_and_nullable.2 [] [FieldTy.single exStrPlain]
     (MergedProp.nullableWrap (MergedProp.reconstituted (FieldTy.single exStrPlain)) [])
     (by decide)⟩

/-- C9, counterexample: the clique `[exRecS, exRecN]` (a plain-string field
against a nullable-string field) is admitted by the Combinability Predicate
in BOTH orders — the non-null member sets agree — yet the property merger
receives the raw field types {string, union[null, string]}, whose
representative is string-kind while the union member is not, and aborts.
So the abort branch IS reachable from an admitted clique. -/
theorem c9_counterexample :
    buildCliques [exRecS, exRecN] = [[exRecS, exRecN]] ∧
    canBeCombined exRecS exRecN = some true ∧
    canBeCombined exRecN exRecS = some true ∧
    makePropertyType [] (cliqueFieldTypes [exRecS, exRecN] 0) false = none := by
  refine ⟨by decide, by decide, by decide, by decide⟩

/-- C9 (amended): if the representative (first) member type of a merged
field is a string type but some member type is not, the property merger
aborts (`none`, no output); and for cliques admitted by the builder whose
members' field types are all plain non-null types (so each field type is
its own single non-null case — no nullable/union wrappers), the abort
branch is never reached. -/
theorem c9_string_mix_abort :
    (∀ (names : List Nat) (first : FieldTy) (rest : List FieldTy) (b : Bool),
      first.isString = true → ¬ (∀ t ∈ first :: rest, FieldTy.isString t = true) →
      makePropertyType names (first :: rest) b = none) ∧
    (∀ (l clique : List ClassType), clique ∈ buildCliques l →
      (∀ c ∈ clique, AtomFields c) →
      ∀ (names : List Nat) (n : Nat) (b : Bool),
        makePropertyType names (cliqueFieldTypes clique n) b ≠ none) :=
  ⟨fun names first rest b h1 h2 => makePropertyType_abort names first rest b h1 h2,
   fun l clique hcl ha names n b => makePropertyType_clique_ne_none l clique hcl ha names n b⟩

/-- Witness for C9: a concrete string/class mix aborts, and a concrete
admitted all-plain-string clique does not. -/
theorem c9_string_mix_abort_witness :
    makePropertyType [] [FieldTy.single exStrPlain, FieldTy.single exCls] false = none ∧
    makePropertyType [] (cliqueFieldTypes [exRecW1, exRecW2] 0) false ≠ none :=
  ⟨c9_string_mix_abort.1 [] (FieldTy.single exStrPlain) [FieldTy.single exCls] false
     (by decide) (by decide),
   c9_string_mix_abort.2 [exRecW1, exRecW2] [exRecW1, exRecW2] (by decide)
     (by unfold AtomFields; decide) [] 0 false⟩

/-- C10: on a duplicate-free input list, every member of every emitted
clique occurs in the input, distinct cliques share no member, and each
clique is itself duplicate-free — so each input record type appears in at
most one clique and the groups handed to the rewrite primitive never
overlap. -/
theorem c10_cliques_partition (l : List ClassType) (hl : l.Nodup) :
    (∀ clique ∈ buildCliques l, ∀ c ∈ clique, c ∈ l) ∧
    (buildCliques l).Pairwise (fun cl1 cl2 => ∀ c, c ∈ cl1 → c ∉ cl2) ∧
    (∀ clique ∈ buildCliques l, clique.Nodup) := by
  refine ⟨?_, ?_, ?_⟩
  · intro clique hcl c hc
    exact buildCliquesGo_mem l.length l clique hcl c hc
  · exact (buildCliquesGo_disjoint l.length l hl).1
  · exact (buildCliquesGo_disjoint l.length l hl).2

/-- Witness for C10 at a concrete duplicate-free input. -/
theorem c10_cliques_partition_witness :
    ([exRecW1, exRecW2] : List ClassType).Nodup ∧
    ((∀ clique ∈ buildCliques [exRecW1, exRecW2], ∀ c ∈ clique, c ∈ [exRecW1, exRecW2]) ∧
      (buildCliques [exRecW1, exRecW2]).Pairwise (fun cl1 cl2 => ∀ c, c ∈ cl1 → c ∉ cl2) ∧
      (∀ clique ∈ buildCliques [exRecW1, exRecW2], clique.Nodup)) :=
  ⟨by decide, c10_cliques_partition [exRecW1, exRecW2] (by decide)⟩
